import Mathlib

set_option maxRecDepth 100000

/-!
# Verification of the dual-channel transcript fusion core (`src/merge.ts`)

This file is a shallow embedding of the fusion core of the meeting-transcriber
repository (the latest `merge.ts` variant: normalizer, hallucination filter,
dead-channel detector, run labeler, gap absorber, renderer), together with
proofs and refutations of the spec's testable properties.

Embedding conventions:
* JS strings are Lean `String`s; character-level regex pipelines
  (`toLowerCase`, `replace`, `trim`, `split`) are modelled by executable
  functions over `List Char` (`String.data`), with `\s` modelled by
  `Char.isWhitespace` and `\w` by alphanumeric-or-underscore (the inputs of
  interest are ordinary text).
* JS `while` loops whose index can jump forward are modelled with an explicit
  fuel parameter that decreases by one per iteration; since the loop index
  strictly increases each iteration, fuel = list length is always sufficient
  (certified by `removeGo_fuel_congr` below), so the fuel-exhaustion branch is
  unreachable at the chosen fuel.
* A labeled `Run` stores its token *list*; the source stores the space-joined
  string `run.text` and re-splits it on `" "` where needed.  Both
  representations coincide for the tokens that reach `labelWords` (they come
  out of a split on `" "`, hence contain no space): joining on `" "` and
  re-splitting is the identity there, `curr.text.split(" ")` is `words`, and
  `run.text.split(" ").length` is `words.length`.
* The title-string cosmetics (`formatDuration`, the display-date replace) are
  presentation only and are carried as raw fields (`sessionTimestamp`,
  `duration`) of the rendered document; no claim depends on their text.
* Segment timestamps (JS numbers) are modelled as rationals; the only
  arithmetic performed on them by the core is selecting the last segment's
  `end` as the duration.
-/

namespace Merge

/-! ## Character-level primitives for the JS string operations -/

/-- JS `\w`: ASCII letters, digits, underscore (after `toLowerCase` no
uppercase letters remain, but `Char.isAlphanum` covers them anyway). -/
def isWordChar (c : Char) : Bool :=
  c.isAlphanum || c = '_'

/-- One step of `replace(/\s+/g, " ")`: collapse every maximal whitespace run
to a single `' '`.  The boolean records whether the previous character was
whitespace (already emitted as the single `' '`). -/
def collapseWs : Bool → List Char → List Char
  | _, [] => []
  | prevWs, c :: t =>
    if c.isWhitespace then
      if prevWs then collapseWs true t else ' ' :: collapseWs true t
    else c :: collapseWs false t

/-- JS `String.prototype.trim`: strip leading and trailing whitespace. -/
def trimChars (cs : List Char) : List Char :=
  ((cs.dropWhile Char.isWhitespace).reverse.dropWhile Char.isWhitespace).reverse

/-- JS `split(sep)` for a single-character separator: every occurrence of the
separator delimits a field, so `""` gives `[""]` and `" "` gives `["", ""]`. -/
def splitChar (sep : Char) : List Char → List (List Char)
  | [] => [[]]
  | c :: t =>
    if c = sep then [] :: splitChar sep t
    else
      match splitChar sep t with
      | [] => [[c]]
      | p :: ps => (c :: p) :: ps

/-- JS `split(/\s+/)` on an already-trimmed string: the maximal non-whitespace
runs, in order (`cur` accumulates the current run in reverse). -/
def wsFieldsAux (cur : List Char) : List Char → List (List Char)
  | [] => if cur.isEmpty then [] else [cur.reverse]
  | c :: t =>
    if c.isWhitespace then
      if cur.isEmpty then wsFieldsAux [] t else cur.reverse :: wsFieldsAux [] t
    else wsFieldsAux (c :: cur) t

/-- JS `Array.prototype.join(" ")` over char-list words. -/
def joinSp : List (List Char) → List Char
  | [] => []
  | [w] => w
  | w :: ws => w ++ ' ' :: joinSp ws

/-- JS `String.prototype.includes`: substring search (empty needle found). -/
def containsChars : List Char → List Char → Bool
  | [], needle => needle.isEmpty
  | c :: t, needle => needle.isPrefixOf (c :: t) || containsChars t needle

/-! ## String-level wrappers used by the fusion core -/

/-- `micText.trim()`. -/
def trimString (s : String) : String :=
  ⟨trimChars s.data⟩

/-- `words.join(" ")`. -/
def joinWords (ws : List String) : String :=
  ⟨joinSp (ws.map String.data)⟩

/-- `s.split(" ")`. -/
def splitOnSpace (s : String) : List String :=
  (splitChar ' ' s.data).map String.mk

/-- `s.split(/\s+/)` as applied in the core: the argument is always trimmed
first, so the fields are the maximal non-whitespace runs; on the empty string
JS yields `[""]`. -/
def splitWs (s : String) : List String :=
  match wsFieldsAux [] s.data with
  | [] => [""]
  | ps => ps.map String.mk

/-- `s.includes(sub)`. -/
def strIncludes (s sub : String) : Bool :=
  containsChars s.data sub.data

/-- `const FILLERS = new Set(["uh", "um"])`, as char lists. -/
def FILLERS : List (List Char) :=
  ["uh".data, "um".data]

/-- `normalize`: lowercase, hyphens to spaces, strip punctuation, collapse
whitespace, trim, split on `" "`, drop empty and filler words, re-join. -/
def normalize (text : String) : String :=
  let cs := text.data.map Char.toLower
  let cs := cs.map fun c => if c = '-' then ' ' else c
  let cs := cs.filter fun c => isWordChar c || c.isWhitespace
  let cs := trimChars (collapseWs false cs)
  let toks := splitChar ' ' cs
  let toks := toks.filter fun w => !w.isEmpty && !FILLERS.contains w
  ⟨joinSp toks⟩

/-! ## Data model -/

/-- `Segment` from `transcribe.ts`: `{start, end, text}`, times in seconds. -/
structure Segment where
  start : ℚ
  «end» : ℚ
  text : String
deriving DecidableEq

/-- `isSpeakerDead`: the reference channel produced zero segments. -/
def isSpeakerDead (segments : List Segment) : Bool :=
  segments.length == 0

/-! ## Hallucination filter -/

def NGRAM : Nat := 8
def MIN_REPEATS : Nat := 3
def WINDOW : Nat := 120

/-- `words.slice(i, i + n).join(" ")`. -/
def sliceJoin (words : List String) (i n : Nat) : String :=
  joinWords ((words.drop i).take n)

/-- The inner counting loop of `removeMicHallucinations`: starting at `j`
with current count `c`, while `j + NGRAM ≤ B` compare the 8-word slice at `j`
with `cand`; on a match advance by `NGRAM` and count it, otherwise advance by
one.  Returns the final `(count, j)`.  `fuel` bounds the number of
iterations; each iteration advances `j` by at least one, so `fuel = B`
suffices (see `scanRepeats_stop`). -/
def scanRepeats (words : List String) (cand : String) (B : Nat) :
    Nat → Nat → Nat → Nat × Nat
  | 0, j, c => (c, j)
  | fuel + 1, j, c =>
    if j + NGRAM ≤ B then
      if sliceJoin words j NGRAM = cand then
        scanRepeats words cand B fuel (j + NGRAM) (c + 1)
      else
        scanRepeats words cand B fuel (j + 1) c
    else (c, j)

/-- The whole lookahead performed at outer position `i`: candidate = the
8-word slice at `i`, bound = `min(i + WINDOW, words.length)`, scan from
`i + NGRAM` with initial count 1. -/
def innerScan (words : List String) (i : Nat) : Nat × Nat :=
  scanRepeats words (sliceJoin words i NGRAM) (min (i + WINDOW) words.length)
    (min (i + WINDOW) words.length) (i + NGRAM) 1

/-- The outer `while (i < words.length)` loop of `removeMicHallucinations`:
if a full candidate exists at `i` and its repeat count reaches
`MIN_REPEATS`, jump to the scan's final position; otherwise keep `words[i]`
and advance by one. -/
def removeGo (words : List String) : Nat → Nat → List String
  | 0, _ => []
  | fuel + 1, i =>
    if i < words.length then
      if i + NGRAM ≤ words.length then
        if MIN_REPEATS ≤ (innerScan words i).1 then
          removeGo words fuel (innerScan words i).2
        else words.getD i "" :: removeGo words fuel (i + 1)
      else words.getD i "" :: removeGo words fuel (i + 1)
    else []

/-- `removeMicHallucinations`.  Fuel `words.length` is sufficient because the
index strictly increases every iteration (`removeGo_fuel_congr`). -/
def removeMicHallucinations (words : List String) : List String :=
  removeGo words words.length 0

/-! ## Run labeler and gap absorber -/

/-- Minimum consecutive word match to count as speaker text. -/
def RUN_LENGTH : Nat := 5

inductive Speaker where
  | you
  | them
deriving DecidableEq

/-- A labeled run.  The source stores `text = words.join(" ")`; we carry the
word list (see the header note on the correspondence). -/
structure Run where
  speaker : Speaker
  words : List String
deriving DecidableEq

/-- The marking pass of `labelWords`, per token index: token `j` is marked
`Them` iff some window of `RUN_LENGTH` consecutive tokens containing `j` is a
substring of the speaker text.  (The source or-accumulates into a boolean
array; marking is monotonic, so the per-index disjunction is the same.) -/
def isThemAt (micWords : List String) (speakerText : String) (j : Nat) : Bool :=
  (List.range micWords.length).any fun i =>
    decide (i + RUN_LENGTH ≤ micWords.length) && decide (i ≤ j) &&
      decide (j < i + RUN_LENGTH) &&
      strIncludes speakerText (sliceJoin micWords i RUN_LENGTH)

/-- The label of token `j`. -/
def labelAt (micWords : List String) (speakerText : String) (j : Nat) : Speaker :=
  if isThemAt micWords speakerText j then Speaker.them else Speaker.you

/-- Each token paired with its label, in order. -/
def labelPairs (micWords : List String) (speakerText : String) :
    List (Speaker × String) :=
  micWords.enum.map fun p => (labelAt micWords speakerText p.1, p.2)

/-- The grouping loop: group consecutive tokens with the same label into
runs.  `sp`/`cur` are the current speaker and its words so far (the source's
`currentSpeaker`/`currentWords`; `cur` starts with the first token, so it is
never empty and the source's emptiness guard is vacuous). -/
def groupGo (sp : Speaker) (cur : List String) :
    List (Speaker × String) → List Run
  | [] => [⟨sp, cur⟩]
  | (s, w) :: rest =>
    if s = sp then groupGo sp (cur ++ [w]) rest
    else ⟨sp, cur⟩ :: groupGo s [w] rest

/-- Tokens grouped into maximal same-label runs (the source initializes
`currentSpeaker` with token 0's label, so the first iteration never flips). -/
def groupRuns (micWords : List String) (speakerText : String) : List Run :=
  match labelPairs micWords speakerText with
  | [] => []
  | (s, w) :: rest => groupGo s [w] rest

def MIN_GAP_WORDS : Nat := 7

/-- The absorption loop: `acc` is the source's `merged` array in reverse
(head = `prev`), `rest` the remaining original runs (head = `curr`, second =
`next`).  A `You` run sandwiched between `Them` runs whose nonempty-word
count is at most `MIN_GAP_WORDS` is concatenated onto `prev`. -/
def absorbGo (acc : List Run) : List Run → List Run
  | [] => acc.reverse
  | curr :: rest =>
    match acc with
    | [] => absorbGo [curr] rest
    | prev :: accTail =>
      match rest with
      | next :: _ =>
        if curr.speaker = Speaker.you ∧ prev.speaker = Speaker.them ∧
            next.speaker = Speaker.them then
          if (curr.words.filter fun w => w ≠ "").length ≤ MIN_GAP_WORDS then
            absorbGo (⟨prev.speaker, prev.words ++ curr.words⟩ :: accTail) rest
          else absorbGo (curr :: prev :: accTail) rest
        else absorbGo (curr :: prev :: accTail) rest
      | [] => absorbGo (curr :: prev :: accTail) rest

/-- `merged`: the absorption pass (seeded with `runs[0]`). -/
def absorbGaps : List Run → List Run
  | [] => []
  | r :: rest => absorbGo [r] rest

/-- The final pass: merge consecutive same-speaker runs created by
absorption.  `acc` is the source's `final` array in reverse. -/
def mergeGo (acc : List Run) : List Run → List Run
  | [] => acc.reverse
  | curr :: rest =>
    match acc with
    | [] => mergeGo [curr] rest
    | prev :: accTail =>
      if curr.speaker = prev.speaker then
        mergeGo (⟨prev.speaker, prev.words ++ curr.words⟩ :: accTail) rest
      else mergeGo (curr :: prev :: accTail) rest

/-- `final`: the same-speaker merge pass (seeded with `merged[0]`). -/
def mergeSame : List Run → List Run
  | [] => []
  | r :: rest => mergeGo [r] rest

/-- `labelWords`: mark, group, absorb, merge.  Empty input returns `[]`. -/
def labelWords (micWords : List String) (speakerText : String) : List Run :=
  if micWords.isEmpty then []
  else mergeSame (absorbGaps (groupRuns micWords speakerText))

/-! ## Renderer / `mergeTranscripts` -/

/-- A rendered block of the output document: a labeled `**You:**`/`**Them:**`
run, the degraded-mode annotation, or the degraded-mode raw text. -/
inductive Block where
  | labeled : Speaker → String → Block
  | note : Block
  | plain : String → Block
deriving DecidableEq

/-- The output document: title data (session timestamp and duration in
seconds, rendered cosmetically in the source) plus the body blocks. -/
structure Doc where
  sessionTimestamp : String
  duration : ℚ
  blocks : List Block
deriving DecidableEq

/-- The remap loop of `mergeTranscripts`: walk `wordIndex` through the
original-case words, slicing off `run.text.split(" ").length` words per run
(over our word-list runs: `run.words.length`). -/
def remapGo (micWords : List String) (wordIndex : Nat) :
    List Run → List (Speaker × String)
  | [] => []
  | r :: rs =>
    (r.speaker, joinWords ((micWords.drop wordIndex).take r.words.length)) ::
      remapGo micWords (wordIndex + r.words.length) rs

/-- `mergeTranscripts`, as the pure document it renders (the directory
creation and file write are I/O around this computation). -/
def mergeTranscripts (micSegments speakerSegments : List Segment)
    (sessionTimestamp : String) : Doc :=
  let speakerDead := isSpeakerDead speakerSegments
  let micText := trimString (joinWords (micSegments.map Segment.text))
  let micWords := removeMicHallucinations (splitWs micText)
  let duration : ℚ :=
    match micSegments.getLast? with
    | some s => s.«end»
    | none => 0
  if speakerDead then
    { sessionTimestamp := sessionTimestamp, duration := duration,
      blocks := [Block.note, Block.plain (joinWords micWords)] }
  else
    let normalizedMicWords := splitOnSpace (normalize (joinWords micWords))
    let speakerText := normalize (joinWords (speakerSegments.map Segment.text))
    let runs := labelWords normalizedMicWords speakerText
    let labeledRuns := remapGo micWords 0 runs
    { sessionTimestamp := sessionTimestamp, duration := duration,
      blocks := labeledRuns.map fun r => Block.labeled r.1 r.2 }

/-! ## The spec's description of the hallucination scan (for claim C3)

Claim C3 (spec §4.2) describes the scan differently from the source: repeats
are counted only when *consecutive* (immediately adjacent, no intervening
words), and on a confirmed cluster the scan discards exactly through the end
of the last repeat and resumes at the word immediately after it.  The
following definitions formalize that description verbatim, as the comparison
point for C3; the source function is `removeMicHallucinations` above. -/

/-- The claim's inner count: non-overlapping repeats of `cand` that are
immediately adjacent, stopping at the first non-repeat, bounded by `B`. -/
def adjRepeats (words : List String) (cand : String) (B : Nat) :
    Nat → Nat → Nat → Nat × Nat
  | 0, j, c => (c, j)
  | fuel + 1, j, c =>
    if j + NGRAM ≤ B ∧ sliceJoin words j NGRAM = cand then
      adjRepeats words cand B fuel (j + NGRAM) (c + 1)
    else (c, j)

/-- The claim's lookahead at outer position `i` (adjacent repeats only);
returns the count and the position immediately after the last repeat. -/
def adjScan (words : List String) (i : Nat) : Nat × Nat :=
  adjRepeats words (sliceJoin words i NGRAM) (min (i + WINDOW) words.length)
    (min (i + WINDOW) words.length) (i + NGRAM) 1

/-- The claim's outer scan: on a confirmed cluster resume immediately after
the last adjacent repeat; otherwise keep the word and advance by one. -/
def consecutiveScanGo (words : List String) : Nat → Nat → List String
  | 0, _ => []
  | fuel + 1, i =>
    if i < words.length then
      if i + NGRAM ≤ words.length then
        if MIN_REPEATS ≤ (adjScan words i).1 then
          consecutiveScanGo words fuel (adjScan words i).2
        else words.getD i "" :: consecutiveScanGo words fuel (i + 1)
      else words.getD i "" :: consecutiveScanGo words fuel (i + 1)
    else []

/-- The hallucination filter exactly as claim C3 describes it. -/
def consecutiveScanRemove (words : List String) : List String :=
  consecutiveScanGo words words.length 0

/-! ## Concrete inputs for the counterexamples -/

/-- An 8-word phrase (all tokens distinct from every other token below). -/
def Q8 : List String := ["q0", "q1", "q2", "q3", "q4", "q5", "q6", "q7"]

/-- `Q8 x Q8 y Q8`: three occurrences of the phrase separated by single
distinct words.  They are not adjacent, so under claim C3's scan nothing is
discarded; the source counts them anyway (its inner loop steps over the
intervening word) and discards the entire list. -/
def gapRepeatInput : List String := Q8 ++ ["x"] ++ Q8 ++ ["y"] ++ Q8

def A8 : List String := ["a0", "a1", "a2", "a3", "a4", "a5", "a6", "a7"]
def B8 : List String := ["b0", "b1", "b2", "b3", "b4", "b5", "b6", "b7"]
def PAD89 : List String := (List.range 89).map fun n => "p" ++ toString n

/-- A 137-word input breaking idempotence of the filter: one `A8`, a
hallucinated `B8 B8 B8` cluster, 89 distinct pad words, then `A8 A8` at
positions 121 and 129.  The first pass removes the `B8` cluster together
with the pad (the inner scan runs to the window end), leaving `A8 A8 A8` —
itself a hallucination cluster that only a second pass removes. -/
def idemCexInput : List String := A8 ++ B8 ++ B8 ++ B8 ++ PAD89 ++ A8 ++ A8

/-! ## Lemmas about the hallucination filter -/

/-- The inner scan never moves its position backwards. -/
theorem scanRepeats_le (w : List String) (cand : String) (B : Nat) :
    ∀ fuel j c, j ≤ (scanRepeats w cand B fuel j c).2 := by
  intro fuel
  induction fuel with
  | zero => intro j c; simp [scanRepeats]
  | succ n ih =>
    intro j c
    simp only [scanRepeats]
    split
    · split
      · exact le_trans (by omega) (ih (j + NGRAM) (c + 1))
      · exact le_trans (by omega) (ih (j + 1) c)
    · simp

/-- With enough fuel the inner scan stops only at the loop condition: its
final position `j` satisfies `B < j + NGRAM` (it runs to the end of the
window, not merely past the last repeat). -/
theorem scanRepeats_stop (w : List String) (cand : String) (B : Nat) :
    ∀ fuel j c, B ≤ fuel + j → B < (scanRepeats w cand B fuel j c).2 + NGRAM := by
  have hN : NGRAM = 8 := rfl
  intro fuel
  induction fuel with
  | zero => intro j c h; simp only [scanRepeats]; omega
  | succ n ih =>
    intro j c h
    simp only [scanRepeats]
    split
    · split
      · exact ih (j + NGRAM) (c + 1) (by omega)
      · exact ih (j + 1) c (by omega)
    · next hj => omega

/-- The position returned by the lookahead at `i` is at least `i + NGRAM`. -/
theorem innerScan_le (w : List String) (i : Nat) : i + NGRAM ≤ (innerScan w i).2 :=
  scanRepeats_le w _ _ _ (i + NGRAM) 1

/-- The position returned by the lookahead at `i` is past the window end:
`min (i + WINDOW) w.length < j + NGRAM`. -/
theorem innerScan_stop (w : List String) (i : Nat) :
    min (i + WINDOW) w.length < (innerScan w i).2 + NGRAM :=
  scanRepeats_stop w _ _ _ (i + NGRAM) 1 (by omega)

/-- Dropping more is a sublist of dropping less. -/
theorem drop_sublist_drop_of_le {α : Type} (l : List α) {i j : Nat} (h : i ≤ j) :
    (l.drop j).Sublist (l.drop i) := by
  have heq : l.drop j = (l.drop i).drop (j - i) := by
    rw [List.drop_drop]
    congr 1
    omega
  rw [heq]
  exact List.drop_sublist _ _

/-- The filter loop only keeps input words, in order, from position `i` on. -/
theorem removeGo_sublist (w : List String) :
    ∀ fuel i, (removeGo w fuel i).Sublist (w.drop i) := by
  have hN : NGRAM = 8 := rfl
  intro fuel
  induction fuel with
  | zero => intro i; simp [removeGo]
  | succ n ih =>
    intro i
    simp only [removeGo]
    split
    · next hi =>
      split
      · split
        · exact ((ih (innerScan w i).2).trans
            (drop_sublist_drop_of_le w (le_trans (by omega) (innerScan_le w i))))
        · rw [List.drop_eq_getElem_cons hi, List.getD_eq_getElem w "" hi]
          exact (ih (i + 1)).cons₂ _
      · rw [List.drop_eq_getElem_cons hi, List.getD_eq_getElem w "" hi]
        exact (ih (i + 1)).cons₂ _
    · simp

/-- Any fuel at least `w.length - i` computes the same result: the chosen
fuel `w.length` is sufficient, certifying that the fuel parameter is an
artifact of the embedding and not a semantic cutoff. -/
theorem removeGo_fuel_congr (w : List String) :
    ∀ fuel fuel' i, w.length ≤ fuel + i → w.length ≤ fuel' + i →
      removeGo w fuel i = removeGo w fuel' i := by
  have hN : NGRAM = 8 := rfl
  intro fuel
  induction fuel with
  | zero =>
    intro fuel' i h h'
    cases fuel' with
    | zero => rfl
    | succ m =>
      simp only [removeGo]
      rw [if_neg (by omega)]
  | succ n ih =>
    intro fuel' i h h'
    cases fuel' with
    | zero =>
      simp only [removeGo]
      rw [if_neg (by omega)]
    | succ m =>
      simp only [removeGo]
      by_cases hi : i < w.length
      · rw [if_pos hi, if_pos hi]
        by_cases hn : i + NGRAM ≤ w.length
        · rw [if_pos hn, if_pos hn]
          by_cases hc : MIN_REPEATS ≤ (innerScan w i).1
          · rw [if_pos hc, if_pos hc]
            exact ih m (innerScan w i).2
              (by have := innerScan_le w i; omega)
              (by have := innerScan_le w i; omega)
          · rw [if_neg hc, if_neg hc, ih m (i + 1) (by omega) (by omega)]
        · rw [if_neg hn, if_neg hn, ih m (i + 1) (by omega) (by omega)]
      · rw [if_neg hi, if_neg hi]

/-! ## Claims C3, C4, C10 — the hallucination filter -/

/-- C10: the output of `removeMicHallucinations` is a subsequence of its
input — kept words come from increasing input positions, none is invented,
duplicated, or reordered, and the output is no longer than the input. -/
theorem removeMicHallucinations_sublist (words : List String) :
    (removeMicHallucinations words).Sublist words ∧
      (removeMicHallucinations words).length ≤ words.length := by
  have h := removeGo_sublist words words.length 0
  rw [List.drop_zero] at h
  exact ⟨h, h.length_le⟩

/-- C3 counterexample: on `Q8 x Q8 y Q8` the scan described by the claim
(consecutive adjacent repeats only, resume right after the last repeat)
keeps every word, but the source filter counts the three non-adjacent
occurrences (its inner loop steps over `x` and `y`) and discards the whole
list — including the non-repeat words `x` and `y`. -/
theorem removeMicHallucinations_differs_from_consecutive_scan :
    consecutiveScanRemove gapRepeatInput = gapRepeatInput ∧
      removeMicHallucinations gapRepeatInput = [] := by decide

/-- C3 amended: when the repeat count at position `i` reaches `MIN_REPEATS`,
the filter resumes at the inner scan's stopping position, which lies past
the end of the lookahead window (`min (i + WINDOW) length < j + NGRAM`) and
at least `NGRAM` past `i` — i.e. everything from `i` up to the window scan's
end is discarded, not merely the repeats themselves. -/
theorem removeGo_trigger_skips_to_scan_end (w : List String) (fuel i : Nat)
    (hn : i + NGRAM ≤ w.length) (hc : MIN_REPEATS ≤ (innerScan w i).1) :
    removeGo w (fuel + 1) i = removeGo w fuel (innerScan w i).2 ∧
      min (i + WINDOW) w.length < (innerScan w i).2 + NGRAM ∧
      i + NGRAM ≤ (innerScan w i).2 := by
  have hN : NGRAM = 8 := rfl
  refine ⟨?_, innerScan_stop w i, innerScan_le w i⟩
  have hi : i < w.length := by omega
  simp [removeGo, hi, hn, hc]

/-- Witness for `removeGo_trigger_skips_to_scan_end` at the concrete cluster
`A8 A8 A8`, position 0. -/
theorem removeGo_trigger_skips_to_scan_end_witness :
    (0 + NGRAM ≤ (A8 ++ A8 ++ A8).length ∧
        MIN_REPEATS ≤ (innerScan (A8 ++ A8 ++ A8) 0).1) ∧
      (removeGo (A8 ++ A8 ++ A8) 1 0 =
          removeGo (A8 ++ A8 ++ A8) 0 (innerScan (A8 ++ A8 ++ A8) 0).2 ∧
        min (0 + WINDOW) (A8 ++ A8 ++ A8).length <
          (innerScan (A8 ++ A8 ++ A8) 0).2 + NGRAM ∧
        0 + NGRAM ≤ (innerScan (A8 ++ A8 ++ A8) 0).2) :=
  ⟨⟨by decide, by decide⟩,
    removeGo_trigger_skips_to_scan_end (A8 ++ A8 ++ A8) 0 0 (by decide) (by decide)⟩

/-- C4 counterexample: the filter is not idempotent.  On `idemCexInput` the
first pass leaves `A8 A8 A8` (nonempty), and a second pass removes it. -/
theorem removeMicHallucinations_not_idempotent :
    removeMicHallucinations (removeMicHallucinations idemCexInput) = [] ∧
      removeMicHallucinations idemCexInput ≠ [] := by decide

/-- C4 amended: a second pass of the filter never invents or reorders words;
its result is a subsequence of the first pass's output (idempotence itself
fails, see the counterexample). -/
theorem removeMicHallucinations_second_pass_sublist (words : List String) :
    (removeMicHallucinations (removeMicHallucinations words)).Sublist
      (removeMicHallucinations words) := by
  have h := removeGo_sublist (removeMicHallucinations words)
    (removeMicHallucinations words).length 0
  rwa [List.drop_zero] at h

/-! ## Lemmas about the labeler passes -/

/-- The words of a run list, concatenated in order. -/
def runWords (rs : List Run) : List String :=
  (rs.map Run.words).flatten

theorem runWords_nil : runWords [] = [] := rfl

theorem runWords_cons (r : Run) (t : List Run) :
    runWords (r :: t) = r.words ++ runWords t := by
  simp [runWords]

theorem runWords_append (a b : List Run) :
    runWords (a ++ b) = runWords a ++ runWords b := by
  simp [runWords]

theorem runWords_singleton (r : Run) : runWords [r] = r.words := by
  simp [runWords]

theorem runWords_reverse_cons (r : Run) (t : List Run) :
    runWords ((r :: t).reverse) = runWords t.reverse ++ r.words := by
  simp [runWords]

/-- Grouping never drops, duplicates, or reorders tokens. -/
theorem groupGo_words :
    ∀ (rest : List (Speaker × String)) (sp : Speaker) (cur : List String),
      runWords (groupGo sp cur rest) = cur ++ rest.map Prod.snd := by
  intro rest
  induction rest with
  | nil => intro sp cur; simp [groupGo, runWords]
  | cons p rest ih =>
    intro sp cur
    obtain ⟨s, w⟩ := p
    simp only [groupGo]
    split
    · rw [ih]
      simp
    · rw [runWords_cons, ih]
      simp

/-- The label-token pairs project back to the token list. -/
theorem labelPairs_map_snd (micWords : List String) (speakerText : String) :
    (labelPairs micWords speakerText).map Prod.snd = micWords := by
  unfold labelPairs
  rw [List.map_map]
  have h : (Prod.snd ∘ fun p : Nat × String =>
      (labelAt micWords speakerText p.1, p.2)) = Prod.snd :=
    funext fun p => rfl
  rw [h, List.enum_map_snd]

/-- The grouped runs partition the token list. -/
theorem groupRuns_words (micWords : List String) (speakerText : String) :
    runWords (groupRuns micWords speakerText) = micWords := by
  unfold groupRuns
  split
  · next heq =>
    have h := labelPairs_map_snd micWords speakerText
    rw [heq] at h
    simp [runWords, ← h]
  · next s w rest heq =>
    have h := labelPairs_map_snd micWords speakerText
    rw [heq] at h
    rw [groupGo_words]
    simpa using h

/-- The absorption loop preserves the concatenated tokens. -/
theorem absorbGo_words :
    ∀ (rest acc : List Run),
      runWords (absorbGo acc rest) = runWords acc.reverse ++ runWords rest := by
  intro rest
  induction rest with
  | nil => intro acc; simp [absorbGo, runWords]
  | cons curr rest ih =>
    intro acc
    cases acc with
    | nil =>
      simp only [absorbGo]
      rw [ih]
      simp [runWords_reverse_cons, runWords_cons, runWords]
    | cons prev accTail =>
      cases rest with
      | nil =>
        simp only [absorbGo]
        simp [runWords_append, runWords_cons, runWords_singleton, runWords_nil,
          List.append_assoc]
      | cons next rest2 =>
        have hstep : absorbGo (prev :: accTail) (curr :: next :: rest2) =
            if curr.speaker = Speaker.you ∧ prev.speaker = Speaker.them ∧
                next.speaker = Speaker.them then
              if (curr.words.filter fun w => w ≠ "").length ≤ MIN_GAP_WORDS then
                absorbGo (⟨prev.speaker, prev.words ++ curr.words⟩ :: accTail)
                  (next :: rest2)
              else absorbGo (curr :: prev :: accTail) (next :: rest2)
            else absorbGo (curr :: prev :: accTail) (next :: rest2) := rfl
        rw [hstep]
        split
        · split
          · rw [ih]
            simp [runWords_reverse_cons, runWords_cons, runWords_append,
              runWords_singleton, runWords_nil, List.append_assoc]
          · rw [ih]
            simp [runWords_reverse_cons, runWords_cons, runWords_append,
              runWords_singleton, runWords_nil, List.append_assoc]
        · rw [ih]
          simp [runWords_reverse_cons, runWords_cons, runWords_append,
            runWords_singleton, runWords_nil, List.append_assoc]

/-- The same-speaker merge loop preserves the concatenated tokens. -/
theorem mergeGo_words :
    ∀ (rest acc : List Run),
      runWords (mergeGo acc rest) = runWords acc.reverse ++ runWords rest := by
  intro rest
  induction rest with
  | nil => intro acc; simp [mergeGo, runWords]
  | cons curr rest ih =>
    intro acc
    cases acc with
    | nil =>
      simp only [mergeGo]
      rw [ih]
      simp [runWords_reverse_cons, runWords_cons, runWords]
    | cons prev accTail =>
      simp only [mergeGo]
      split
      · rw [ih]
        simp [runWords_reverse_cons, runWords_cons, runWords_append,
          runWords_singleton, runWords_nil, List.append_assoc]
      · rw [ih]
        simp [runWords_reverse_cons, runWords_cons, runWords_append,
          runWords_singleton, runWords_nil, List.append_assoc]

theorem absorbGaps_words (rs : List Run) : runWords (absorbGaps rs) = runWords rs := by
  cases rs with
  | nil => rfl
  | cons r rest =>
    simp only [absorbGaps]
    rw [absorbGo_words]
    simp [runWords_reverse_cons, runWords_cons, runWords]

theorem mergeSame_words (rs : List Run) : runWords (mergeSame rs) = runWords rs := by
  cases rs with
  | nil => rfl
  | cons r rest =>
    simp only [mergeSame]
    rw [mergeGo_words]
    simp [runWords_reverse_cons, runWords_cons, runWords]

/-! ## Claims C5 and C6 — partition and alternation -/

/-- C5: for every token list and reference text, concatenating the words of
the runs returned by `labelWords`, in order, reproduces exactly the input
token list — the marking, grouping, absorption, and merge passes drop,
duplicate, and reorder nothing. -/
theorem labelWords_partition (micWords : List String) (speakerText : String) :
    runWords (labelWords micWords speakerText) = micWords := by
  unfold labelWords
  split
  · next h =>
    rw [runWords_nil]
    exact (List.isEmpty_iff.mp h).symm
  · rw [mergeSame_words, absorbGaps_words, groupRuns_words]

/-- The final merge pass always yields strictly alternating speakers. -/
theorem mergeGo_chain :
    ∀ (rest acc : List Run),
      List.Chain' (fun a b => a.speaker ≠ b.speaker) acc →
        List.Chain' (fun a b => a.speaker ≠ b.speaker) (mergeGo acc rest) := by
  intro rest
  induction rest with
  | nil =>
    intro acc h
    simp only [mergeGo]
    rw [List.chain'_reverse]
    exact h.imp fun _ _ hab => Ne.symm hab
  | cons curr rest ih =>
    intro acc h
    cases acc with
    | nil =>
      simp only [mergeGo]
      exact ih [curr] (List.chain'_singleton curr)
    | cons prev accTail =>
      simp only [mergeGo]
      split
      · next hsp =>
        apply ih
        cases accTail with
        | nil => exact List.chain'_singleton _
        | cons q t =>
          rw [List.chain'_cons] at h ⊢
          exact ⟨h.1, h.2⟩
      · next hsp =>
        apply ih
        rw [List.chain'_cons]
        exact ⟨hsp, h⟩

theorem mergeSame_chain (rs : List Run) :
    List.Chain' (fun a b => a.speaker ≠ b.speaker) (mergeSame rs) := by
  cases rs with
  | nil => simp [mergeSame]
  | cons r rest => exact mergeGo_chain rest [r] (List.chain'_singleton r)

/-- C6: in the run list returned by `labelWords` no two adjacent runs carry
the same speaker label. -/
theorem labelWords_alternating (micWords : List String) (speakerText : String) :
    List.Chain' (fun a b => a.speaker ≠ b.speaker)
      (labelWords micWords speakerText) := by
  unfold labelWords
  split
  · simp
  · exact mergeSame_chain _

/-! ## Claim C7 — the gap absorption rule -/

/-- C7: a `You` run of token-length at most `MIN_GAP_WORDS = 7` (tokens all
nonempty, as normalized tokens are) sandwiched between two `Them` runs is
absorbed unconditionally — no textual-distance condition — into the
preceding `Them` run, concatenating its tokens in order, while a `You` run
of token-length greater than 7 in the same position is kept. -/
theorem absorbGaps_sandwich (a b c : List String) (hb : ∀ w ∈ b, w ≠ "") :
    (b.length ≤ MIN_GAP_WORDS →
        mergeSame (absorbGaps
            [⟨Speaker.them, a⟩, ⟨Speaker.you, b⟩, ⟨Speaker.them, c⟩]) =
          [⟨Speaker.them, a ++ b ++ c⟩]) ∧
      (MIN_GAP_WORDS < b.length →
        mergeSame (absorbGaps
            [⟨Speaker.them, a⟩, ⟨Speaker.you, b⟩, ⟨Speaker.them, c⟩]) =
          [⟨Speaker.them, a⟩, ⟨Speaker.you, b⟩, ⟨Speaker.them, c⟩]) := by
  have hfilter : (b.filter fun w => w ≠ "") = b :=
    List.filter_eq_self.mpr fun w hw => by simpa using hb w hw
  have hstep : absorbGaps
      [⟨Speaker.them, a⟩, ⟨Speaker.you, b⟩, ⟨Speaker.them, c⟩] =
      if (b.filter fun w => w ≠ "").length ≤ MIN_GAP_WORDS then
        [⟨Speaker.them, a ++ b⟩, ⟨Speaker.them, c⟩]
      else [⟨Speaker.them, a⟩, ⟨Speaker.you, b⟩, ⟨Speaker.them, c⟩] := rfl
  constructor
  · intro hle
    rw [hstep, if_pos (by rw [hfilter]; exact hle)]
    rfl
  · intro hgt
    rw [hstep, if_neg (by rw [hfilter]; omega)]
    rfl

/-- Ten distinct `Them` tokens. -/
def themA : List String :=
  ["t1", "t2", "t3", "t4", "t5", "t6", "t7", "t8", "t9", "t10"]

/-- Four distinct `You` tokens (the claim's concrete example). -/
def youB : List String := ["u1", "u2", "u3", "u4"]

/-- Ten more distinct `Them` tokens. -/
def themC : List String :=
  ["v1", "v2", "v3", "v4", "v5", "v6", "v7", "v8", "v9", "v10"]

/-- Witness for `absorbGaps_sandwich`: runs `[Them(10), You(4), Them(10)]`
collapse to the single run `Them(24)`. -/
theorem absorbGaps_sandwich_witness :
    (∀ w ∈ youB, w ≠ "") ∧ youB.length ≤ MIN_GAP_WORDS ∧
      mergeSame (absorbGaps
          [⟨Speaker.them, themA⟩, ⟨Speaker.you, youB⟩, ⟨Speaker.them, themC⟩]) =
        [⟨Speaker.them, themA ++ youB ++ themC⟩] :=
  ⟨by decide, by decide,
    (absorbGaps_sandwich themA youB themC (by decide)).1 (by decide)⟩

/-! ## Claim C9 — inputs shorter than the matching window -/

/-- With fewer than `RUN_LENGTH` tokens no window exists, so no token is
ever marked. -/
theorem isThemAt_short (micWords : List String) (speakerText : String)
    (h : micWords.length < RUN_LENGTH) (j : Nat) :
    isThemAt micWords speakerText j = false := by
  have h5 : RUN_LENGTH = 5 := rfl
  unfold isThemAt
  rw [List.any_eq_false]
  intro i hi
  have : ¬ (i + RUN_LENGTH ≤ micWords.length) := by omega
  simp [this]

theorem labelAt_short (micWords : List String) (speakerText : String)
    (h : micWords.length < RUN_LENGTH) (j : Nat) :
    labelAt micWords speakerText j = Speaker.you := by
  simp [labelAt, isThemAt_short micWords speakerText h j]

/-- Grouping a constant-label pair list yields a single run. -/
theorem groupGo_const :
    ∀ (rest : List (Speaker × String)) (sp : Speaker) (cur : List String),
      (∀ p ∈ rest, p.1 = sp) →
        groupGo sp cur rest = [⟨sp, cur ++ rest.map Prod.snd⟩] := by
  intro rest
  induction rest with
  | nil => intro sp cur _; simp [groupGo]
  | cons p rest ih =>
    intro sp cur hall
    obtain ⟨s, w⟩ := p
    have hs : s = sp := hall (s, w) (List.mem_cons_self _ _)
    simp only [groupGo, if_pos hs]
    rw [ih sp (cur ++ [w]) fun q hq => hall q (List.mem_cons_of_mem _ hq)]
    simp

/-- Shared helper: on a nonempty token list shorter than `RUN_LENGTH`,
`labelWords` returns the single run `You(all tokens)` whatever the
reference text is. -/
theorem labelWords_short (micWords : List String) (speakerText : String)
    (h0 : micWords ≠ []) (h5 : micWords.length < RUN_LENGTH) :
    labelWords micWords speakerText = [⟨Speaker.you, micWords⟩] := by
  unfold labelWords
  rw [if_neg (by simpa [List.isEmpty_iff] using h0)]
  have hpairs : labelPairs micWords speakerText =
      micWords.map fun w => (Speaker.you, w) := by
    unfold labelPairs
    calc micWords.enum.map
          (fun p => (labelAt micWords speakerText p.1, p.2))
        = micWords.enum.map ((fun w => (Speaker.you, w)) ∘ Prod.snd) :=
          List.map_congr_left fun p _ => by
            simp [labelAt_short micWords speakerText h5 p.1]
      _ = (micWords.enum.map Prod.snd).map fun w => (Speaker.you, w) :=
          (List.map_map _ _ _).symm
      _ = micWords.map fun w => (Speaker.you, w) := by
          rw [List.enum_map_snd]
  cases micWords with
  | nil => exact absurd rfl h0
  | cons t ts =>
    unfold groupRuns
    rw [hpairs]
    simp only [List.map_cons]
    rw [groupGo_const (ts.map fun w => (Speaker.you, w)) Speaker.you [t]
      (by intro p hp; simp only [List.mem_map] at hp; obtain ⟨w, _, rfl⟩ := hp; rfl)]
    simp [List.map_map, absorbGaps, absorbGo, mergeSame, mergeGo]

/-- C9: for a nonempty token list shorter than `RUN_LENGTH = 5` and any
reference text, `labelWords` yields exactly one run, labeled `You`, holding
all tokens in order — nothing is ever marked `Them`, even when the whole
sequence occurs verbatim in the reference text. -/
theorem labelWords_short_single_you (micWords : List String)
    (speakerText : String) (h0 : micWords ≠ [])
    (h5 : micWords.length < RUN_LENGTH) :
    labelWords micWords speakerText = [⟨Speaker.you, micWords⟩] :=
  labelWords_short micWords speakerText h0 h5

/-- Witness for `labelWords_short_single_you`: four tokens that all occur
verbatim in the reference text are still labeled `You`. -/
theorem labelWords_short_single_you_witness :
    ((["i", "agree", "with", "plan"] : List String) ≠ [] ∧
        (["i", "agree", "with", "plan"] : List String).length < RUN_LENGTH) ∧
      labelWords ["i", "agree", "with", "plan"] "i agree with plan" =
        [⟨Speaker.you, ["i", "agree", "with", "plan"]⟩] :=
  ⟨⟨by decide, by decide⟩,
    labelWords_short_single_you ["i", "agree", "with", "plan"]
      "i agree with plan" (by decide) (by decide)⟩

/-! ## Claim C2 — degraded mode -/

/-- C2: with an empty reference segment list, the document body is exactly
the degraded annotation block followed by one unlabeled block whose text is
the hallucination-filtered primary words joined by single spaces, verbatim;
no labeled `**You:**`/`**Them:**` block occurs (so `labelWords` is never
applied on this path). -/
theorem mergeTranscripts_degraded (micSegments : List Segment) (ts : String) :
    (mergeTranscripts micSegments [] ts).blocks =
        [Block.note, Block.plain (joinWords (removeMicHallucinations
          (splitWs (trimString (joinWords (micSegments.map Segment.text))))))] ∧
      ∀ sp t, Block.labeled sp t ∉ (mergeTranscripts micSegments [] ts).blocks := by
  have hblocks : (mergeTranscripts micSegments [] ts).blocks =
      [Block.note, Block.plain (joinWords (removeMicHallucinations
        (splitWs (trimString (joinWords (micSegments.map Segment.text))))))] := rfl
  refine ⟨hblocks, ?_⟩
  intro sp t
  rw [hblocks]
  simp

/-! ## Claim C8 — empty primary channel -/

/-- C8 counterexample: with an empty primary segment list and a nonempty
reference list the body is not empty — `""` splits to the word list `[""]`,
which survives filtering and normalization and is rendered as one `You` run
with empty text, i.e. a stray `**You:** ` block. -/
theorem mergeTranscripts_empty_primary_cex :
    (mergeTranscripts [] [⟨0, 1, "hi"⟩] "t").blocks =
      [Block.labeled Speaker.you ""] := by decide

/-- C8 amended: for an empty primary segment list and any nonempty reference
segment list the document has duration 0 and exactly one rendered run — a
`You`-labeled block with empty text (the empty mic text splits to the
singleton `[""]`); every stage is total and the output is exactly this. -/
theorem mergeTranscripts_empty_primary (s : Segment) (rest : List Segment)
    (ts : String) :
    (mergeTranscripts [] (s :: rest) ts).blocks =
        [Block.labeled Speaker.you ""] ∧
      (mergeTranscripts [] (s :: rest) ts).duration = 0 := by
  constructor
  · have h1 : (mergeTranscripts [] (s :: rest) ts).blocks =
        (remapGo [""] 0 (labelWords [""]
            (normalize (joinWords ((s :: rest).map Segment.text))))).map
          fun r => Block.labeled r.1 r.2 := rfl
    rw [h1, labelWords_short [""] _ (by decide) (by decide)]
    rfl
  · rfl

/-! ## Claim C1 — the normalized/original positional alignment -/

/-- A primary segment whose text contains the filler word `um`. -/
def fillerMicSeg : Segment := ⟨0, 2, "um hello world"⟩

/-- A nonempty reference segment (normal mode). -/
def refSeg : Segment := ⟨0, 1, "x"⟩

/-- C1 is false on the code: `normalize` deletes filler words after the
original-case word array is fixed, so the normalized token count (2) differs
from the original word count (3); the positional remap then slices the
original words by normalized counts and the rendered run reads `"um hello"`
while the filtered primary text is `"um hello world"` — the word `"world"`
is dropped from the output.  (The claim asserts the two counts always agree
and every original word lands in exactly one run.) -/
theorem mergeTranscripts_remap_misaligned :
    (mergeTranscripts [fillerMicSeg] [refSeg] "t").blocks =
        [Block.labeled Speaker.you "um hello"] ∧
      removeMicHallucinations (splitWs (trimString
          (joinWords ([fillerMicSeg].map Segment.text)))) =
        ["um", "hello", "world"] ∧
      (splitOnSpace (normalize (joinWords ["um", "hello", "world"]))).length = 2 := by
  decide

end Merge
